import Mathlib

/-!
Shallow embedding of the symbol-table core of the vscode-antlr4 backend
(src/backend/ContextSymbolTable.ts) together with the parts of its
surrounding data model that the verified properties need.  Pure
TypeScript methods become Lean functions over explicit table values;
the exception-to-sentinel pattern of listActions becomes an explicit
loop that switches to the degraded result when a formatting step would
throw; the dependency-notification side effect of clear becomes an
explicit list of emitted edge-removal calls.
-/

/-- Modelled from the spec: the external source-context collaborator
(interface ISourceContext of helpers.ts, which is not part of the
sources at hand) exposes a stable file identifier and a display file
name; the table keeps a weak back-reference to it for provenance. -/
structure Owner where
  sourceId : String
  fileName : String
deriving Repr, DecidableEq

/-- Row and column of a source position, as used in reported spans. -/
structure TextPosition where
  row : Nat
  column : Nat
deriving Repr, DecidableEq

/-- Start and stop position of a reported span. -/
structure TextRange where
  startPos : TextPosition
  endPos : TextPosition
deriving Repr, DecidableEq

/-- Token-index interval of a parse-tree node, the basis of the
containment tests of symbolContainingContext. -/
structure TokenInterval where
  a : Nat
  b : Nat
deriving Repr, DecidableEq

/-- Modelled from the spec: the IDefinition record produced by
definitionForContext of helpers.ts (not part of the sources at hand):
the textual content and the lexical range of a parse-tree node. -/
structure IDefinition where
  text : String
  range : TextRange
deriving Repr, DecidableEq

/-- Modelled from the spec: the closed enumeration of symbol kinds
(SymbolKind of types.ts, which is not part of the sources at hand);
only the members used by ContextSymbolTable.ts appear. -/
inductive SymbolKind where
  | Unknown
  | Terminal
  | TokenVocab
  | Import
  | BuiltInLexerToken
  | VirtualLexerToken
  | FragmentLexerToken
  | LexerRule
  | BuiltInMode
  | LexerMode
  | BuiltInChannel
  | TokenChannel
  | ParserRule
  | Option
  | LocalNamedAction
  | GlobalNamedAction
  | ParserAction
  | LexerAction
  | ParserPredicate
  | LexerPredicate
deriving Repr, DecidableEq

/-- Modelled from the spec: the kind groups of SymbolGroupKind of
types.ts (not part of the sources at hand), the merged namespaces a
bare identifier reference may resolve into. -/
inductive SymbolGroupKind where
  | TokenRef
  | RuleRef
  | LexerMode
  | TokenChannel
deriving Repr, DecidableEq

/-- Modelled from the spec: the action and predicate categories of
CodeActionType of types.ts (not part of the sources at hand). -/
inductive CodeActionType where
  | LocalNamed
  | GlobalNamed
  | ParserAction
  | LexerAction
  | ParserPredicate
  | LexerPredicate
deriving Repr, DecidableEq

/-- Modelled from the spec: the runtime class of a symbol object.  The
concrete symbol classes live in files (parser-symbols directory) that
are not part of the sources at hand; following the design note of the
spec, the instanceof dispatch over that class hierarchy is modelled as
an explicit tag stored on each symbol.  BaseSymbol stands for any
other class of the hierarchy. -/
inductive SymClass where
  | TokenVocabSymbol
  | ImportSymbol
  | BuiltInTokenSymbol
  | VirtualTokenSymbol
  | FragmentTokenSymbol
  | TokenSymbol
  | BuiltInModeSymbol
  | LexerModeSymbol
  | BuiltInChannelSymbol
  | TokenChannelSymbol
  | RuleSymbol
  | OptionsSymbol
  | OptionSymbol
  | TerminalSymbol
  | LocalNamedActionSymbol
  | GlobalNamedActionSymbol
  | ParserActionSymbol
  | LexerActionSymbol
  | ParserPredicateSymbol
  | LexerPredicateSymbol
  | BaseSymbol
deriving Repr, DecidableEq

/-- Modelled from the spec: getKindFromSymbol of helpers.ts (not part
of the sources at hand) classifies a symbol by its runtime class and
falls back to Unknown. -/
def kindOfClass : SymClass → SymbolKind
  | .TokenVocabSymbol => .TokenVocab
  | .ImportSymbol => .Import
  | .BuiltInTokenSymbol => .BuiltInLexerToken
  | .VirtualTokenSymbol => .VirtualLexerToken
  | .FragmentTokenSymbol => .FragmentLexerToken
  | .TokenSymbol => .LexerRule
  | .BuiltInModeSymbol => .BuiltInMode
  | .LexerModeSymbol => .LexerMode
  | .BuiltInChannelSymbol => .BuiltInChannel
  | .TokenChannelSymbol => .TokenChannel
  | .RuleSymbol => .ParserRule
  | .OptionsSymbol => .Option
  | .OptionSymbol => .Option
  | .TerminalSymbol => .Terminal
  | .LocalNamedActionSymbol => .LocalNamedAction
  | .GlobalNamedActionSymbol => .GlobalNamedAction
  | .ParserActionSymbol => .ParserAction
  | .LexerActionSymbol => .LexerAction
  | .ParserPredicateSymbol => .ParserPredicate
  | .LexerPredicateSymbol => .LexerPredicate
  | .BaseSymbol => .Unknown

/-- Modelled from the spec: which symbol classes extend ScopedSymbol
(composite, scope-bearing symbols that own nested symbols). -/
def isScopedClass : SymClass → Bool
  | .FragmentTokenSymbol => true
  | .TokenSymbol => true
  | .RuleSymbol => true
  | .OptionsSymbol => true
  | _ => false

/-- Parse-tree node: token-index interval, reported lexical range, its
text, and child nodes. -/
inductive CtxNode where
  | mk (interval : TokenInterval) (range : TextRange) (text : String) (children : List CtxNode)

def CtxNode.interval : CtxNode → TokenInterval
  | .mk i _ _ _ => i

def CtxNode.range : CtxNode → TextRange
  | .mk _ r _ _ => r

def CtxNode.text : CtxNode → String
  | .mk _ _ t _ => t

def CtxNode.children : CtxNode → List CtxNode
  | .mk _ _ _ cs => cs

mutual

def CtxNode.beq : CtxNode → CtxNode → Bool
  | .mk i₁ r₁ t₁ ch₁, .mk i₂ r₂ t₂ ch₂ =>
    i₁ == i₂ && r₁ == r₂ && t₁ == t₂ && CtxNode.beqList ch₁ ch₂

def CtxNode.beqList : List CtxNode → List CtxNode → Bool
  | [], [] => true
  | x :: xs, y :: ys => CtxNode.beq x y && CtxNode.beqList xs ys
  | _, _ => false

end

instance : BEq CtxNode := ⟨CtxNode.beq⟩

/-- Symbol object: a name, the runtime class tag, an optional
parse-tree anchor, and (for scope-bearing classes) nested symbols. -/
inductive BaseSym where
  | mk (name : String) (cls : SymClass) (context : Option CtxNode) (children : List BaseSym)

def BaseSym.name : BaseSym → String
  | .mk n _ _ _ => n

def BaseSym.cls : BaseSym → SymClass
  | .mk _ c _ _ => c

def BaseSym.context : BaseSym → Option CtxNode
  | .mk _ _ x _ => x

def BaseSym.children : BaseSym → List BaseSym
  | .mk _ _ _ cs => cs

mutual

def BaseSym.beq : BaseSym → BaseSym → Bool
  | .mk n₁ c₁ x₁ ch₁, .mk n₂ c₂ x₂ ch₂ =>
    n₁ == n₂ && c₁ == c₂ && x₁ == x₂ && BaseSym.beqList ch₁ ch₂

def BaseSym.beqList : List BaseSym → List BaseSym → Bool
  | [], [] => true
  | x :: xs, y :: ys => BaseSym.beq x y && BaseSym.beqList xs ys
  | _, _ => false

end

instance : BEq BaseSym := ⟨BaseSym.beq⟩

/-- Non-recursive fields of a ContextSymbolTable: its name, the
optional owner back-reference, the symbol children, the five action
and predicate caches, and the reference-count map. -/
structure TableData where
  name : String
  owner : Option Owner
  children : List BaseSym
  namedActions : List BaseSym
  parserActions : List BaseSym
  lexerActions : List BaseSym
  parserPredicates : List BaseSym
  lexerPredicates : List BaseSym
  symbolReferences : List (String × Nat)

/-- ContextSymbolTable together with its ordered direct dependencies
(other tables linked via import or token-vocabulary declarations). -/
inductive CtxSymbolTable where
  | mk (data : TableData) (dependencies : List CtxSymbolTable)

def CtxSymbolTable.data : CtxSymbolTable → TableData
  | .mk d _ => d

def CtxSymbolTable.dependencies : CtxSymbolTable → List CtxSymbolTable
  | .mk _ ds => ds

def CtxSymbolTable.owner (t : CtxSymbolTable) : Option Owner := t.data.owner

def CtxSymbolTable.children (t : CtxSymbolTable) : List BaseSym := t.data.children

def CtxSymbolTable.namedActions (t : CtxSymbolTable) : List BaseSym := t.data.namedActions

def CtxSymbolTable.parserActions (t : CtxSymbolTable) : List BaseSym := t.data.parserActions

def CtxSymbolTable.lexerActions (t : CtxSymbolTable) : List BaseSym := t.data.lexerActions

def CtxSymbolTable.parserPredicates (t : CtxSymbolTable) : List BaseSym := t.data.parserPredicates

def CtxSymbolTable.lexerPredicates (t : CtxSymbolTable) : List BaseSym := t.data.lexerPredicates

def CtxSymbolTable.symbolReferences (t : CtxSymbolTable) : List (String × Nat) := t.data.symbolReferences

/-- Modelled from the spec: definitionForContext of helpers.ts (not
part of the sources at hand) is total over an optional node: an absent
node yields an absent definition, otherwise the record carries the
text and the lexical range of the node. -/
def definitionForContext : Option CtxNode → Option IDefinition
  | none => none
  | some c => some { text := c.text, range := c.range }

/-- Modelled from the spec: the interval containment test used by
symbolContainingContext, strict (proper) containment rather than
overlap-equality: the outer interval covers the inner one and the two
are not equal. -/
def intervalProperlyContains (outer inner : TokenInterval) : Bool :=
  (outer.a ≤ inner.a && inner.b ≤ outer.b) && (outer.a < inner.a || inner.b < outer.b)

/-- Modelled from the spec: the local step of scoped resolution (the
underlying scoped-resolution mechanism): scan the children of a scope
in insertion order for the first symbol with the requested name. -/
def scopeResolve (cs : List BaseSym) (name : String) : Option BaseSym :=
  cs.find? (fun s => s.name == name)

mutual

/-- Modelled from the spec: resolveSync on a symbol table, returning
the found symbol together with the owner of its root table (the
provenance the code reads through symbol.root).  Resolution first
tries the own children of the table; with localOnly set to false a
miss falls through to the direct dependencies in insertion order. -/
def tableResolveWithOwner : CtxSymbolTable → String → Bool → Option (BaseSym × Option Owner)
  | .mk d deps, name, localOnly =>
    match scopeResolve d.children name with
    | some s => some (s, d.owner)
    | none => if localOnly then none else depsResolveWithOwner deps name

/-- Modelled from the spec: the dependency walk of resolveSync — the
first dependency that resolves the name wins. -/
def depsResolveWithOwner : List CtxSymbolTable → String → Option (BaseSym × Option Owner)
  | [], _ => none
  | d :: rest, name =>
    match tableResolveWithOwner d name false with
    | some r => some r
    | none => depsResolveWithOwner rest name

end

/-- Resolution result without the provenance component. -/
def tableResolveSync (t : CtxSymbolTable) (name : String) (localOnly : Bool) : Option BaseSym :=
  (tableResolveWithOwner t name localOnly).map Prod.fst

/-- Modelled from the spec: resolveSync on the options scope symbol;
the children of the scope are scanned first, and with localOnly set to
false a miss climbs to the parent of the scope, the table itself. -/
def optionScopeResolve (t : CtxSymbolTable) (opts : BaseSym) (name : String) (localOnly : Bool) :
    Option BaseSym :=
  match scopeResolve opts.children name with
  | some s => some s
  | none => if localOnly then none else tableResolveSync t name false

/-- Translation of ContextSymbolTable.getSymbolOfType.  The TypeScript
method resolves the name and casts the result with an unchecked `as`
cast, so for every kind except TokenVocab (which resolves inside the
options scope) the requested kind never filters the result; kinds
outside the switch fall through to undefined. -/
def getSymbolOfType (t : CtxSymbolTable) (name : String) (kind : SymbolKind) (localOnly : Bool) :
    Option BaseSym :=
  match kind with
  | .TokenVocab =>
    match scopeResolve t.children "options" with
    | some options => optionScopeResolve t options name localOnly
    | none => none
  | .Import => tableResolveSync t name localOnly
  | .BuiltInLexerToken => tableResolveSync t name localOnly
  | .VirtualLexerToken => tableResolveSync t name localOnly
  | .FragmentLexerToken => tableResolveSync t name localOnly
  | .LexerRule => tableResolveSync t name localOnly
  | .BuiltInMode => tableResolveSync t name localOnly
  | .LexerMode => tableResolveSync t name localOnly
  | .BuiltInChannel => tableResolveSync t name localOnly
  | .TokenChannel => tableResolveSync t name localOnly
  | .ParserRule => tableResolveSync t name localOnly
  | _ => none

/-- Translation of ContextSymbolTable.symbolExists. -/
def symbolExists (t : CtxSymbolTable) (name : String) (kind : SymbolKind) (localOnly : Bool) :
    Bool :=
  (getSymbolOfType t name kind localOnly).isSome

/-- Translation of ContextSymbolTable.symbolExistsInGroup. -/
def symbolExistsInGroup (t : CtxSymbolTable) (symbol : String) (kind : SymbolGroupKind)
    (localOnly : Bool) : Bool :=
  match kind with
  | .TokenRef =>
    if symbolExists t symbol .BuiltInLexerToken localOnly then true
    else if symbolExists t symbol .VirtualLexerToken localOnly then true
    else if symbolExists t symbol .FragmentLexerToken localOnly then true
    else if symbolExists t symbol .LexerRule localOnly then true
    else false
  | .LexerMode =>
    if symbolExists t symbol .BuiltInMode localOnly then true
    else if symbolExists t symbol .LexerMode localOnly then true
    else false
  | .TokenChannel =>
    if symbolExists t symbol .BuiltInChannel localOnly then true
    else if symbolExists t symbol .TokenChannel localOnly then true
    else false
  | .RuleRef =>
    if symbolExists t symbol .ParserRule localOnly then true
    else false

/-- Translation of ContextSymbolTable.contextForSymbol. -/
def contextForSymbol (t : CtxSymbolTable) (symbolName : String) (kind : SymbolKind)
    (localOnly : Bool) : Option CtxNode :=
  match getSymbolOfType t symbolName kind localOnly with
  | none => none
  | some s => s.context

/-- The descriptive record handed to callers (ISymbolInfo of
types.ts). -/
structure ISymbolInfo where
  kind : SymbolKind
  name : String
  source : String
  definition : Option IDefinition := none
  description : Option String := none
deriving Repr, DecidableEq

/-- Translation of one iteration of the dependency walk in the
Terminal arm of ContextSymbolTable.getSymbolInfo: the callback
overwrites the symbol, kind and provenance on every dependency that
resolves the name, so after the walk the last resolving dependency has
won.  The TokenVocab and Import arm of the same switch builds
provenance records inside a forEach callback and returns them from the
callback only; those values are discarded by forEach, so that arm has
no effect on the result and contributes nothing to the embedding. -/
def terminalSubstStep (name : String) (acc : BaseSym × SymbolKind × Option Owner)
    (dep : CtxSymbolTable) : BaseSym × SymbolKind × Option Owner :=
  match tableResolveWithOwner dep name false with
  | some (actualSymbol, actualOwner) =>
    (actualSymbol, kindOfClass actualSymbol.cls, actualOwner)
  | none => acc

/-- Record-building tail of ContextSymbolTable.getSymbolInfo applied
to an already resolved symbol with the owner of its table; see the
comment on terminalSubstStep for the two special-cased arms. -/
def getSymbolInfoCore (t : CtxSymbolTable) (sym : BaseSym) (symOwner : Option Owner) :
    ISymbolInfo :=
  let kind := kindOfClass sym.cls
  let name := sym.name
  let substituted :=
    if kind == .Terminal then
      t.dependencies.foldl (terminalSubstStep name) (sym, kind, symOwner)
    else (sym, kind, symOwner)
  match substituted with
  | (sym2, kind2, owner2) =>
    { kind := kind2
      name := name
      source :=
        match sym2.context, owner2 with
        | some _, some o => o.fileName
        | _, _ => "ANTLR runtime"
      definition := definitionForContext sym2.context
      description := none }

/-- Translation of ContextSymbolTable.getSymbolInfo for a name given
as a string: the name is resolved first (with fall-through to
dependencies) and an unresolvable name yields no record. -/
def getSymbolInfoByName (t : CtxSymbolTable) (name : String) : Option ISymbolInfo :=
  match tableResolveWithOwner t name false with
  | none => none
  | some (sym, symOwner) => some (getSymbolInfoCore t sym symOwner)

/-- Modelled from the spec: duplicate removal by identity as performed
by wrapping a list in a JavaScript Set: the first occurrence of every
element is kept, in insertion order. -/
def dedupKeepFirstGo [BEq α] : List α → List α → List α
  | [], _ => []
  | x :: xs, seen =>
    if seen.contains x then dedupKeepFirstGo xs seen
    else x :: dedupKeepFirstGo xs (seen ++ [x])

def dedupKeepFirst [BEq α] (l : List α) : List α := dedupKeepFirstGo l []

mutual

/-- Modelled from the spec: getAllSymbolsSync over the base symbol
class, paired with the owner of the root table of every collected
symbol (the provenance the code reads through symbol.root).  The own
children of the table come first; with localOnly set to false the
symbols of the dependencies follow, in dependency insertion order. -/
def allSymbolsWithOwner : CtxSymbolTable → Bool → List (BaseSym × Option Owner)
  | .mk d deps, localOnly =>
    let here := d.children.map (fun s => (s, d.owner))
    if localOnly then here else here ++ depsSymbolsWithOwner deps

def depsSymbolsWithOwner : List CtxSymbolTable → List (BaseSym × Option Owner)
  | [] => []
  | d :: rest => allSymbolsWithOwner d false ++ depsSymbolsWithOwner rest

end

/-- Translation of ContextSymbolTable.symbolsOfType: collect the
symbols of one runtime class, remove duplicates by identity, and
format each survivor with the provenance of its root table. -/
def symbolsOfType (t : CtxSymbolTable) (c : SymClass) (localOnly : Bool) : List ISymbolInfo :=
  let symbols := (allSymbolsWithOwner t localOnly).filter (fun p => p.1.cls == c)
  (dedupKeepFirst symbols).map
    (fun p =>
      { kind := kindOfClass p.1.cls
        name := p.1.name
        source := match p.2 with | some o => o.fileName | none => "ANTLR runtime"
        definition := definitionForContext p.1.context
        description := none })

/-- Head of the top-level listing: the record of the tokenVocab
option symbol inside the options scope, when both resolve. -/
def tokenVocabHead (t : CtxSymbolTable) : List ISymbolInfo :=
  match scopeResolve t.children "options" with
  | none => []
  | some options =>
    match optionScopeResolve t options "tokenVocab" true with
    | none => []
    | some tokenVocab => [getSymbolInfoCore t tokenVocab t.owner]

/-- Translation of ContextSymbolTable.listTopLevelSymbols: the
token-vocabulary option first when present, then the ten symbol
categories in the fixed order of the source. -/
def listTopLevelSymbols (t : CtxSymbolTable) (localOnly : Bool) : List ISymbolInfo :=
  tokenVocabHead t
    ++ symbolsOfType t .ImportSymbol localOnly
    ++ symbolsOfType t .BuiltInTokenSymbol localOnly
    ++ symbolsOfType t .VirtualTokenSymbol localOnly
    ++ symbolsOfType t .FragmentTokenSymbol localOnly
    ++ symbolsOfType t .TokenSymbol localOnly
    ++ symbolsOfType t .BuiltInModeSymbol localOnly
    ++ symbolsOfType t .LexerModeSymbol localOnly
    ++ symbolsOfType t .BuiltInChannelSymbol localOnly
    ++ symbolsOfType t .TokenChannelSymbol localOnly
    ++ symbolsOfType t .RuleSymbol localOnly

/-- Translation of the cache appenders defineNamedAction,
defineParserAction and defineLexerAction. -/
def defineNamedAction (t : CtxSymbolTable) (action : BaseSym) : CtxSymbolTable :=
  .mk { t.data with namedActions := t.data.namedActions ++ [action] } t.dependencies

def defineParserAction (t : CtxSymbolTable) (action : BaseSym) : CtxSymbolTable :=
  .mk { t.data with parserActions := t.data.parserActions ++ [action] } t.dependencies

def defineLexerAction (t : CtxSymbolTable) (action : BaseSym) : CtxSymbolTable :=
  .mk { t.data with lexerActions := t.data.lexerActions ++ [action] } t.dependencies

/-- Translation of ContextSymbolTable.definePredicate: a lexer
predicate is appended to the lexer predicate cache, every other
predicate to the parser predicate cache; the index of the predicate is
its position at append time. -/
def definePredicate (t : CtxSymbolTable) (predicate : BaseSym) : CtxSymbolTable :=
  if predicate.cls == .LexerPredicateSymbol then
    .mk { t.data with lexerPredicates := t.data.lexerPredicates ++ [predicate] } t.dependencies
  else
    .mk { t.data with parserPredicates := t.data.parserPredicates ++ [predicate] } t.dependencies

/-- Translation of ContextSymbolTable.actionListOfType: the named
action cache filtered by subtype for the named categories, the
matching cache directly for the rest. -/
def actionListOfType (t : CtxSymbolTable) (type : CodeActionType) : List BaseSym :=
  match type with
  | .LocalNamed => t.namedActions.filter (fun s => s.cls == .LocalNamedActionSymbol)
  | .ParserAction => t.parserActions
  | .LexerAction => t.lexerActions
  | .ParserPredicate => t.parserPredicates
  | .LexerPredicate => t.lexerPredicates
  | .GlobalNamed => t.namedActions.filter (fun s => s.cls == .GlobalNamedActionSymbol)

/-- Modelled from the spec: the host toLowerCase used by the
case-insensitive comparison of listActions lower-cases every
character of the name. -/
def strToLower (s : String) : String := String.mk (s.data.map Char.toLower)

/-- Translation of the per-entry record construction inside the loop
of ContextSymbolTable.listActions, for an entry whose context is
present (so that reading its text cannot throw): the raw definition
span, widened at the end column by three characters when the action is
literally named skip, case-insensitively. -/
def formatActionRecord (t : CtxSymbolTable) (entry : BaseSym) (c : CtxNode) : ISymbolInfo :=
  let definition : IDefinition := { text := c.text, range := c.range }
  let definition :=
    if strToLower entry.name == "skip" then
      { definition with
        range :=
          { definition.range with
            endPos :=
              { row := definition.range.endPos.row
                column := definition.range.startPos.column + 3 } } }
    else definition
  { kind := kindOfClass entry.cls
    name := entry.name
    source := match t.owner with | some o => o.fileName | none => ""
    definition := some definition
    description := some c.text }

/-- Building one record of listActions either succeeds or throws: the
non-null assertion on entry.context followed by getText throws exactly
when the entry has no parse-tree anchor, which none models here. -/
def buildActionRecord (t : CtxSymbolTable) (entry : BaseSym) : Option ISymbolInfo :=
  match entry.context with
  | none => none
  | some c => some (formatActionRecord t entry c)

/-- The synthetic record the catch arm of listActions pushes. -/
def internalErrorRecord : ISymbolInfo :=
  { kind := .Unknown
    name := "Error getting actions list"
    source := ""
    definition := none
    description := some "Internal error occurred while collecting the list of defined actions" }

/-- Loop of ContextSymbolTable.listActions: records accumulate in
order; when building one record throws, the records pushed so far stay
in the result list and the catch arm appends the single synthetic
error record to them, ending the call. -/
def listActionsGo (t : CtxSymbolTable) : List BaseSym → List ISymbolInfo → List ISymbolInfo
  | [], acc => acc
  | entry :: rest, acc =>
    match buildActionRecord t entry with
    | none => acc ++ [internalErrorRecord]
    | some r => listActionsGo t rest (acc ++ [r])

/-- Translation of ContextSymbolTable.listActions. -/
def listActions (t : CtxSymbolTable) (type : CodeActionType) : List ISymbolInfo :=
  listActionsGo t (actionListOfType t type) []

mutual

/-- Translation of the recursive helper inside
ContextSymbolTable.symbolContainingContext: scan the children in
order; the first child whose anchor interval properly contains the
target is the result, except that a scope-bearing child is first
searched recursively and a deeper match is preferred. -/
def findRecursive : List BaseSym → TokenInterval → Option BaseSym
  | [], _ => none
  | s :: rest, target =>
    match findInSymbol s target with
    | some r => some r
    | none => findRecursive rest target

/-- Verdict of the scan for one child: none when the child has no
anchor or its interval does not properly contain the target (the scan
moves on), otherwise the deeper match inside a scope-bearing child
when there is one, else the child itself. -/
def findInSymbol : BaseSym → TokenInterval → Option BaseSym
  | .mk n c ctx ch, target =>
    match ctx with
    | none => none
    | some node =>
      if intervalProperlyContains node.interval target then
        match (if isScopedClass c then findRecursive ch target else none) with
        | some child => some child
        | none => some (.mk n c ctx ch)
      else none

end

/-- Translation of ContextSymbolTable.symbolContainingContext. -/
def symbolContainingContext (t : CtxSymbolTable) (context : CtxNode) : Option BaseSym :=
  findRecursive t.children context.interval

mutual

/-- Modelled from the spec: getAllNestedSymbolsSync with a name
filter — every symbol of the subtree under a scope whose name matches,
in depth-first pre-order. -/
def allNestedSymbolsNamed : List BaseSym → String → List BaseSym
  | [], _ => []
  | s :: rest, name =>
    (if s.name == name then [s] else [])
      ++ nestedOfSymbol s name
      ++ allNestedSymbolsNamed rest name

def nestedOfSymbol : BaseSym → String → List BaseSym
  | .mk _ c _ ch, name => if isScopedClass c then allNestedSymbolsNamed ch name else []

end

/-- Translation of the body of the loop of
ContextSymbolTable.getSymbolOccurrences for one collected symbol: a
symbol whose root table has no owner is skipped entirely; otherwise a
matching symbol yields a record with a kind-specific narrowed anchor,
and a scope-bearing symbol additionally yields one record per nested
occurrence of the name. -/
def occurrenceRecords (symbolName : String) (p : BaseSym × Option Owner) : List ISymbolInfo :=
  match p.2 with
  | none => []
  | some owner =>
    let s := p.1
    let direct :=
      match s.context with
      | some c =>
        if s.name == symbolName then
          let narrowed : Option CtxNode :=
            if s.cls == .FragmentTokenSymbol then c.children.get? 1
            else if s.cls == .TokenSymbol || s.cls == .RuleSymbol then c.children.get? 0
            else some c
          [{ kind := kindOfClass s.cls
             name := symbolName
             source := owner.fileName
             definition := definitionForContext narrowed
             description := none }]
        else []
      | none => []
    let nested :=
      if isScopedClass s.cls then
        (allNestedSymbolsNamed s.children symbolName).map
          (fun r =>
            { kind := kindOfClass r.cls
              name := symbolName
              source := owner.fileName
              definition := definitionForContext r.context
              description := none })
      else []
    direct ++ nested

/-- Translation of ContextSymbolTable.getSymbolOccurrences. -/
def getSymbolOccurrences (t : CtxSymbolTable) (symbolName : String) (localOnly : Bool) :
    List ISymbolInfo :=
  ((allSymbolsWithOwner t localOnly).map (occurrenceRecords symbolName)).flatten

/-- Result of clear: the cleared table together with the list of
emitted removeDependency calls, each pairing the receiving owner (the
owner of the cleared table) with the owner to drop (the owner of one
former dependency). -/
structure ClearResult where
  table : CtxSymbolTable
  notifications : List (Owner × Owner)

/-- Translation of ContextSymbolTable.clear: when the table has an
owner, one removeDependency call is emitted per dependency that has an
owner itself; then the reference map and the five caches are emptied
and the base clear discards the symbol children and the dependency
links. -/
def clear (t : CtxSymbolTable) : ClearResult :=
  let notifications :=
    match t.owner with
    | none => []
    | some o => t.dependencies.filterMap (fun dep => dep.owner.map (fun od => (o, od)))
  { table :=
      .mk
        { name := t.data.name
          owner := t.data.owner
          children := []
          namedActions := []
          parserActions := []
          lexerActions := []
          parserPredicates := []
          lexerPredicates := []
          symbolReferences := [] }
        []
    notifications := notifications }

/-- Modelled from the spec: the bidirectional file-dependency graph
the owners live in, as an explicit edge list; the pair (x, y) records
that x depends on y, equivalently that x is a dependent of y. -/
def dependentsOf (edges : List (Owner × Owner)) (o : Owner) : List Owner :=
  (edges.filter (fun e => e.2 == o)).map (fun e => e.1)

/-- Modelled from the spec: removeDependency on a source context drops
the edge from the receiver to the dropped owner, so the dropped owner
no longer lists the receiver among its dependents. -/
def applyRemoveDependency (edges : List (Owner × Owner)) (receiver dropped : Owner) :
    List (Owner × Owner) :=
  edges.filter (fun e => !(e.1 == receiver && e.2 == dropped))

/-- Applying every edge removal emitted by a clear call. -/
def applyNotifications (edges : List (Owner × Owner)) (ns : List (Owner × Owner)) :
    List (Owner × Owner) :=
  ns.foldl (fun acc n => applyRemoveDependency acc n.1 n.2) edges

/-! Concrete fixtures used by witnesses and counterexamples. -/

/-- Table data with no symbols, owned by file T.g4. -/
def emptyData : TableData :=
  { name := "T"
    owner := some ⟨"T", "T.g4"⟩
    children := []
    namedActions := []
    parserActions := []
    lexerActions := []
    parserPredicates := []
    lexerPredicates := []
    symbolReferences := [] }

/-- A parse-tree node used as a generic anchor. -/
def node0 : CtxNode := .mk ⟨0, 1⟩ ⟨⟨1, 0⟩, ⟨1, 5⟩⟩ "import K;" []

/-- Table whose only symbol is a parser rule named INT. -/
def c1Table : CtxSymbolTable :=
  .mk { emptyData with children := [.mk "INT" .RuleSymbol none []] } []

/-- C1, counterexample: in a table whose only definition of INT is a
parser rule, the TokenRef group lookup nevertheless reports true,
because getSymbolOfType resolves by name only and the unchecked casts
never compare the kind; the claim requires false here. -/
theorem c1_counterexample :
    c1Table.children = [BaseSym.mk "INT" SymClass.RuleSymbol none []] ∧
    symbolExistsInGroup c1Table "INT" SymbolGroupKind.TokenRef true = true ∧
    symbolExists c1Table "INT" SymbolKind.BuiltInLexerToken true = true := by
  refine ⟨rfl, by decide, by decide⟩

/-- C1 (amended): for every kind in the switch of getSymbolOfType
other than TokenVocab, symbolExists ignores the requested kind and
reports whether the name resolves at all; consequently the TokenRef
group test is also equivalent to plain name resolution, so it is true
whenever the name is defined as any symbol, including one defined only
as a parser rule. -/
theorem c1_kind_not_checked (t : CtxSymbolTable) (name : String) (localOnly : Bool) :
    symbolExistsInGroup t name SymbolGroupKind.TokenRef localOnly
      = (tableResolveSync t name localOnly).isSome ∧
    symbolExists t name SymbolKind.Import localOnly
      = (tableResolveSync t name localOnly).isSome ∧
    symbolExists t name SymbolKind.BuiltInLexerToken localOnly
      = (tableResolveSync t name localOnly).isSome ∧
    symbolExists t name SymbolKind.VirtualLexerToken localOnly
      = (tableResolveSync t name localOnly).isSome ∧
    symbolExists t name SymbolKind.FragmentLexerToken localOnly
      = (tableResolveSync t name localOnly).isSome ∧
    symbolExists t name SymbolKind.LexerRule localOnly
      = (tableResolveSync t name localOnly).isSome ∧
    symbolExists t name SymbolKind.ParserRule localOnly
      = (tableResolveSync t name localOnly).isSome := by
  simp only [symbolExistsInGroup, symbolExists, getSymbolOfType]
  rcases Bool.eq_false_or_eq_true (tableResolveSync t name localOnly).isSome with h | h <;>
    simp only [h] <;> simp

/-- Dependency table owned by file K.g4, whose source identifier
contains the import name K. -/
def depK : CtxSymbolTable :=
  .mk { emptyData with name := "K", owner := some ⟨"K.g4", "K.g4"⟩ } []

/-- Table owned by T.g4 that holds an import symbol K and the direct
dependency on the table of K.g4. -/
def c2Table : CtxSymbolTable :=
  .mk { emptyData with children := [.mk "K" .ImportSymbol (some node0) []] } [depK]

/-- C2, evaluation at the failing input: the table of T.g4 imports K
and depends on the table owned by K.g4 (whose source identifier K.g4
contains the name K), yet getSymbolInfo reports the provenance of the
referencing table T.g4, not K.g4: the records built in the TokenVocab
and Import arm are returned from the forEach callback and thrown away,
so the arm never affects the result. -/
theorem c2_import_provenance_eval :
    c2Table.dependencies = [depK] ∧
    depK.owner = some ⟨"K.g4", "K.g4"⟩ ∧
    (getSymbolInfoByName c2Table "K").map (fun r => r.source) = some "T.g4" ∧
    ("T.g4" : String) ≠ "K.g4" := by
  refine ⟨rfl, by decide, by decide, by decide⟩

/-- Dependency table owned by D1.g4 declaring the token PLUS. -/
def depD1 : CtxSymbolTable :=
  .mk { emptyData with
        name := "D1"
        owner := some ⟨"D1", "D1.g4"⟩
        children := [.mk "PLUS" .TokenSymbol (some node0) []] } []

/-- Dependency table owned by D2.g4 also declaring the token PLUS. -/
def depD2 : CtxSymbolTable :=
  .mk { emptyData with
        name := "D2"
        owner := some ⟨"D2", "D2.g4"⟩
        children := [.mk "PLUS" .TokenSymbol (some node0) []] } []

/-- Referencing table with a terminal reference PLUS and the two
dependencies, D1 first. -/
def c3Table : CtxSymbolTable :=
  .mk { emptyData with children := [.mk "PLUS" .TerminalSymbol (some node0) []] } [depD1, depD2]

/-- C3, counterexample: both dependencies define PLUS and D1 comes
first in insertion order, yet the reported provenance is the file of
the second dependency — the forEach walk of the Terminal arm keeps
overwriting the match, so the last resolving dependency wins, not the
first as the claim states. -/
theorem c3_counterexample :
    c3Table.dependencies = [depD1, depD2] ∧
    (tableResolveWithOwner depD1 "PLUS" false).isSome = true ∧
    (getSymbolInfoByName c3Table "PLUS").map (fun r => r.source) = some "D2.g4" ∧
    ("D2.g4" : String) ≠ "D1.g4" := by
  refine ⟨rfl, by decide, by decide, by decide⟩

/-- Folding the terminal substitution step over dependencies that do
not resolve the name leaves the accumulator unchanged. -/
theorem foldl_terminalSubstStep_none (name : String) (l : List CtxSymbolTable)
    (acc : BaseSym × SymbolKind × Option Owner)
    (h : ∀ d ∈ l, tableResolveWithOwner d name false = none) :
    l.foldl (terminalSubstStep name) acc = acc := by
  induction l generalizing acc with
  | nil => rfl
  | cons d rest ih =>
    have hd := h d (List.mem_cons_self d rest)
    have hrest : ∀ d' ∈ rest, tableResolveWithOwner d' name false = none :=
      fun d' hm => h d' (List.mem_cons_of_mem d hm)
    simp only [List.foldl_cons, terminalSubstStep, hd]
    exact ih acc hrest

/-- C3 (amended): for a terminal symbol, getSymbolInfo walks the
dependencies in insertion order and substitutes the symbol, kind and
provenance from every dependency that resolves the name, so the
record reflects the last dependency that resolves it; with a single
resolving dependency — the scenario of the claim, a token declared in
one imported grammar — that provenance is exactly the file of that
dependency. -/
theorem c3_last_dependency_wins
    (t d : CtxSymbolTable) (l₁ l₂ : List CtxSymbolTable)
    (name : String) (s0 s : BaseSym) (o0 : Option Owner) (o : Owner)
    (hres : tableResolveWithOwner t name false = some (s0, o0))
    (hkind : kindOfClass s0.cls = SymbolKind.Terminal)
    (hdeps : t.dependencies = l₁ ++ d :: l₂)
    (hd : tableResolveWithOwner d s0.name false = some (s, some o))
    (hrest : ∀ d' ∈ l₂, tableResolveWithOwner d' s0.name false = none)
    (hctx : s.context.isSome = true) :
    (getSymbolInfoByName t name).map (fun r => r.source) = some o.fileName ∧
    (getSymbolInfoByName t name).map (fun r => r.kind) = some (kindOfClass s.cls) ∧
    (getSymbolInfoByName t name).map (fun r => r.name) = some s0.name := by
  obtain ⟨c, hc⟩ := Option.isSome_iff_exists.mp hctx
  simp only [getSymbolInfoByName, hres]
  simp only [getSymbolInfoCore, hkind, hdeps, beq_self_eq_true, if_true, List.foldl_append,
    List.foldl_cons]
  rw [show terminalSubstStep s0.name (List.foldl (terminalSubstStep s0.name)
        (s0, SymbolKind.Terminal, o0) l₁) d = (s, kindOfClass s.cls, some o) by
      simp only [terminalSubstStep, hd]]
  rw [foldl_terminalSubstStep_none s0.name l₂ _ hrest]
  simp [hc]

/-- C3, witness covering the scenario of the claim: table T1 holds a
terminal reference PLUS; its single direct dependency is the table of
D2.g4 declaring PLUS; the reported source is D2.g4. -/
def c3SingleDepTable : CtxSymbolTable :=
  .mk { emptyData with children := [.mk "PLUS" .TerminalSymbol (some node0) []] } [depD2]

theorem c3_last_dependency_wins_witness :
    (getSymbolInfoByName c3SingleDepTable "PLUS").map (fun r => r.source) = some "D2.g4" ∧
    (getSymbolInfoByName c3SingleDepTable "PLUS").map (fun r => r.kind)
      = some SymbolKind.LexerRule ∧
    (getSymbolInfoByName c3SingleDepTable "PLUS").map (fun r => r.name) = some "PLUS" :=
  c3_last_dependency_wins c3SingleDepTable depD2 [] [] "PLUS"
    (BaseSym.mk "PLUS" .TerminalSymbol (some node0) [])
    (BaseSym.mk "PLUS" .TokenSymbol (some node0) [])
    (some ⟨"T", "T.g4"⟩) ⟨"D2", "D2.g4"⟩
    rfl (by decide) rfl rfl (by intro d' h; simp at h) rfl

/-- Records already accumulated by the listActions loop stay in front
of whatever the rest of the loop produces. -/
theorem listActionsGo_acc (t : CtxSymbolTable) (l : List BaseSym) (acc : List ISymbolInfo) :
    listActionsGo t l acc = acc ++ listActionsGo t l [] := by
  induction l generalizing acc with
  | nil => simp [listActionsGo]
  | cons e rest ih =>
    cases h : buildActionRecord t e with
    | none => simp [listActionsGo, h]
    | some r =>
      simp only [listActionsGo, h]
      rw [ih (acc ++ [r]), ih ([] ++ [r])]
      simp

/-- The listActions loop walks a prefix of entries that all format
successfully by appending their records to the accumulator. -/
theorem listActionsGo_ok_prefix (t : CtxSymbolTable) (l₁ rest : List BaseSym)
    (acc : List ISymbolInfo)
    (hok : ∀ x ∈ l₁, (buildActionRecord t x).isSome = true) :
    listActionsGo t (l₁ ++ rest) acc
      = listActionsGo t rest (acc ++ l₁.filterMap (buildActionRecord t)) := by
  induction l₁ generalizing acc with
  | nil => simp
  | cons x xs ih =>
    have hx := hok x (List.mem_cons_self x xs)
    obtain ⟨r, hr⟩ := Option.isSome_iff_exists.mp hx
    have hxs : ∀ y ∈ xs, (buildActionRecord t y).isSome = true :=
      fun y hm => hok y (List.mem_cons_of_mem x hm)
    simp only [List.cons_append, listActionsGo, hr, List.filterMap_cons_some hr, List.append_eq]
    rw [ih (acc ++ [r]) hxs]
    simp

/-- C4 (amended): when building the record for some entry throws, the
call never propagates the exception; it returns the records of the
successfully formatted entries before the failing one followed by
exactly one synthetic internal-error record of kind Unknown — the
result is that single synthetic record alone only when the very first
entry fails. -/
theorem c4_error_after_prefix (t : CtxSymbolTable) (type : CodeActionType)
    (l₁ l₂ : List BaseSym) (e : BaseSym)
    (hsplit : actionListOfType t type = l₁ ++ e :: l₂)
    (hok : ∀ x ∈ l₁, (buildActionRecord t x).isSome = true)
    (he : e.context = none) :
    listActions t type = l₁.filterMap (buildActionRecord t) ++ [internalErrorRecord] ∧
    internalErrorRecord.kind = SymbolKind.Unknown := by
  refine ⟨?_, rfl⟩
  have hbad : buildActionRecord t e = none := by simp [buildActionRecord, he]
  rw [listActions, hsplit, listActionsGo_ok_prefix t l₁ (e :: l₂) [] hok]
  simp [listActionsGo, hbad]

/-- Parser action with an anchor, so its record formats cleanly. -/
def actGood : BaseSym := .mk "a1" .ParserActionSymbol (some node0) []

/-- Parser action without an anchor: the non-null assertion on its
context makes record building throw. -/
def actBad : BaseSym := .mk "a2" .ParserActionSymbol none []

/-- Table whose parser action cache holds a formatting action followed
by a throwing one. -/
def c4Table : CtxSymbolTable :=
  .mk { emptyData with parserActions := [actGood, actBad] } []

/-- C4, counterexample: the second parser action of the list throws
during formatting, and the returned list is the successfully formatted
first record followed by the synthetic error record — two records, not
the single synthetic record the claim requires. -/
theorem c4_counterexample :
    (actionListOfType c4Table CodeActionType.ParserAction).map (fun e => e.context.isSome)
      = [true, false] ∧
    listActions c4Table CodeActionType.ParserAction ≠ [internalErrorRecord] ∧
    (listActions c4Table CodeActionType.ParserAction).length = 2 ∧
    (listActions c4Table CodeActionType.ParserAction).getLast? = some internalErrorRecord := by
  refine ⟨by decide, by decide, by decide, by decide⟩

theorem c4_error_after_prefix_witness :
    listActions c4Table CodeActionType.ParserAction
      = [actGood].filterMap (buildActionRecord c4Table) ++ [internalErrorRecord] ∧
    internalErrorRecord.kind = SymbolKind.Unknown :=
  c4_error_after_prefix c4Table CodeActionType.ParserAction [actGood] [] actBad rfl
    (by intro x hx; simp only [List.mem_singleton] at hx; subst hx; rfl) rfl

/-- Mapping a partial function that succeeds on every element keeps
the length of the list. -/
theorem filterMap_allSome_length (f : α → Option β) (l : List α)
    (h : ∀ x ∈ l, (f x).isSome = true) : (l.filterMap f).length = l.length := by
  induction l with
  | nil => rfl
  | cons x xs ih =>
    obtain ⟨r, hr⟩ := Option.isSome_iff_exists.mp (h x (List.mem_cons_self x xs))
    rw [List.filterMap_cons_some hr, List.length_cons, List.length_cons,
      ih (fun y hm => h y (List.mem_cons_of_mem x hm))]

/-- C9: the record listActions builds for an action entry whose
anchor is present sits at the position of the entry, and its reported
definition keeps the raw span of the anchor unless the action is named
skip case-insensitively, in which case the end column is overridden to
the start column plus three. -/
theorem c9_skip_span (t : CtxSymbolTable) (type : CodeActionType)
    (l₁ l₂ : List BaseSym) (e : BaseSym) (c : CtxNode)
    (hsplit : actionListOfType t type = l₁ ++ e :: l₂)
    (hok : ∀ x ∈ l₁, (buildActionRecord t x).isSome = true)
    (hc : e.context = some c) :
    (listActions t type).get? l₁.length = some (formatActionRecord t e c) ∧
    (strToLower e.name = "skip" →
      (formatActionRecord t e c).definition
        = some { text := c.text
                 range := { startPos := c.range.startPos
                            endPos := { row := c.range.endPos.row
                                        column := c.range.startPos.column + 3 } } }) ∧
    (strToLower e.name ≠ "skip" →
      (formatActionRecord t e c).definition = some { text := c.text, range := c.range }) := by
  refine ⟨?_, ?_, ?_⟩
  · have he : buildActionRecord t e = some (formatActionRecord t e c) := by
      simp [buildActionRecord, hc]
    rw [listActions, hsplit, listActionsGo_ok_prefix t l₁ (e :: l₂) [] hok]
    simp only [listActionsGo, he, List.nil_append]
    rw [listActionsGo_acc]
    have hlen : l₁.length = (l₁.filterMap (buildActionRecord t)).length :=
      (filterMap_allSome_length _ _ hok).symm
    rw [hlen, List.append_assoc, List.get?_append_right (le_refl _)]
    simp
  · intro h
    simp [formatActionRecord, h]
  · intro h
    have hb : (strToLower e.name == "skip") = false := by
      simp only [beq_eq_false_iff_ne, ne_eq]
      exact h
    simp [formatActionRecord, hb]

/-- Parse-tree anchor of a skip action whose raw span covers columns
four to five. -/
def skipCtx : CtxNode := .mk ⟨0, 1⟩ ⟨⟨1, 4⟩, ⟨1, 5⟩⟩ "skip" []

/-- Lexer action named SKIP, matching skip case-insensitively. -/
def skipAct : BaseSym := .mk "SKIP" .LexerActionSymbol (some skipCtx) []

/-- Table whose lexer action cache holds the skip action. -/
def c9Table : CtxSymbolTable :=
  .mk { emptyData with lexerActions := [skipAct] } []

theorem c9_skip_span_witness :
    (listActions c9Table CodeActionType.LexerAction).get? 0
      = some (formatActionRecord c9Table skipAct skipCtx) ∧
    (strToLower skipAct.name = "skip" →
      (formatActionRecord c9Table skipAct skipCtx).definition
        = some { text := skipCtx.text
                 range := { startPos := skipCtx.range.startPos
                            endPos := { row := skipCtx.range.endPos.row
                                        column := skipCtx.range.startPos.column + 3 } } }) ∧
    (strToLower skipAct.name ≠ "skip" →
      (formatActionRecord c9Table skipAct skipCtx).definition
        = some { text := skipCtx.text, range := skipCtx.range }) :=
  c9_skip_span c9Table CodeActionType.LexerAction [] [] skipAct skipCtx rfl
    (by intro x hx; simp at hx) rfl

/-- Folding definePredicate over a whole list of predicates. -/
def definePredicates (t : CtxSymbolTable) (ps : List BaseSym) : CtxSymbolTable :=
  ps.foldl definePredicate t

/-- Lexer predicate cache after a sequence of definePredicate calls:
the previous cache followed by the lexer predicates of the sequence in
order. -/
theorem definePredicates_lexer (t : CtxSymbolTable) (ps : List BaseSym) :
    (definePredicates t ps).lexerPredicates
      = t.lexerPredicates ++ ps.filter (fun p => p.cls == SymClass.LexerPredicateSymbol) := by
  induction ps generalizing t with
  | nil => simp [definePredicates]
  | cons p rest ih =>
    simp only [definePredicates, List.foldl_cons] at ih ⊢
    rw [ih]
    cases hp : (p.cls == SymClass.LexerPredicateSymbol) with
    | true =>
      simp [definePredicate, hp, CtxSymbolTable.lexerPredicates, CtxSymbolTable.data,
        List.filter_cons, List.append_assoc]
    | false =>
      simp [definePredicate, hp, CtxSymbolTable.lexerPredicates, CtxSymbolTable.data,
        List.filter_cons]

/-- Parser predicate cache after a sequence of definePredicate calls:
the previous cache followed by the non-lexer predicates in order. -/
theorem definePredicates_parserCache (t : CtxSymbolTable) (ps : List BaseSym) :
    (definePredicates t ps).parserPredicates
      = t.parserPredicates ++ ps.filter (fun p => !(p.cls == SymClass.LexerPredicateSymbol)) := by
  induction ps generalizing t with
  | nil => simp [definePredicates]
  | cons p rest ih =>
    simp only [definePredicates, List.foldl_cons] at ih ⊢
    rw [ih]
    cases hp : (p.cls == SymClass.LexerPredicateSymbol) with
    | true =>
      simp [definePredicate, hp, CtxSymbolTable.parserPredicates, CtxSymbolTable.data,
        List.filter_cons]
    | false =>
      simp [definePredicate, hp, CtxSymbolTable.parserPredicates, CtxSymbolTable.data,
        List.filter_cons, List.append_assoc]

/-- C8: starting from a table with empty predicate caches, after any
sequence of definePredicate calls each category cache is exactly the
subsequence of predicates of that category in definition order — so
the k-th predicate defined within its category sits at position k-1 of
the cache and is the k-th element the accessor returns — and any
further definitions only append, leaving every existing index
unchanged for the lifetime of the table. -/
theorem c8_predicate_indices (t : CtxSymbolTable) (ps qs : List BaseSym)
    (hlex : t.lexerPredicates = []) (hpar : t.parserPredicates = []) :
    actionListOfType (definePredicates t ps) CodeActionType.LexerPredicate
      = ps.filter (fun p => p.cls == SymClass.LexerPredicateSymbol) ∧
    actionListOfType (definePredicates t ps) CodeActionType.ParserPredicate
      = ps.filter (fun p => !(p.cls == SymClass.LexerPredicateSymbol)) ∧
    (∀ i p, (ps.filter (fun p => p.cls == SymClass.LexerPredicateSymbol)).get? i = some p →
      (actionListOfType (definePredicates t ps) CodeActionType.LexerPredicate).get? i
        = some p) ∧
    actionListOfType (definePredicates (definePredicates t ps) qs) CodeActionType.LexerPredicate
      = actionListOfType (definePredicates t ps) CodeActionType.LexerPredicate
        ++ qs.filter (fun p => p.cls == SymClass.LexerPredicateSymbol) ∧
    actionListOfType (definePredicates (definePredicates t ps) qs) CodeActionType.ParserPredicate
      = actionListOfType (definePredicates t ps) CodeActionType.ParserPredicate
        ++ qs.filter (fun p => !(p.cls == SymClass.LexerPredicateSymbol)) := by
  have h1 : actionListOfType (definePredicates t ps) CodeActionType.LexerPredicate
      = ps.filter (fun p => p.cls == SymClass.LexerPredicateSymbol) := by
    simp [actionListOfType, definePredicates_lexer, hlex]
  have h2 : actionListOfType (definePredicates t ps) CodeActionType.ParserPredicate
      = ps.filter (fun p => !(p.cls == SymClass.LexerPredicateSymbol)) := by
    simp [actionListOfType, definePredicates_parserCache, hpar]
  refine ⟨h1, h2, ?_, ?_, ?_⟩
  · intro i p hp
    rw [h1]
    exact hp
  · simp [actionListOfType, definePredicates_lexer]
  · simp [actionListOfType, definePredicates_parserCache]

/-- Lexer predicates and a parser predicate used by the C8 witness. -/
def lexPredA : BaseSym := .mk "lp1" .LexerPredicateSymbol (some node0) []

def lexPredB : BaseSym := .mk "lp2" .LexerPredicateSymbol (some node0) []

def parPredA : BaseSym := .mk "pp1" .ParserPredicateSymbol (some node0) []

/-- Table with empty predicate caches for the C8 witness. -/
def c8Table : CtxSymbolTable := .mk emptyData []

theorem c8_predicate_indices_witness :
    actionListOfType (definePredicates c8Table [lexPredA, parPredA, lexPredB])
        CodeActionType.LexerPredicate
      = [lexPredA, lexPredB] ∧
    actionListOfType (definePredicates c8Table [lexPredA, parPredA, lexPredB])
        CodeActionType.ParserPredicate
      = [parPredA] ∧
    actionListOfType
        (definePredicates (definePredicates c8Table [lexPredA, parPredA, lexPredB]) [lexPredB])
        CodeActionType.LexerPredicate
      = [lexPredA, lexPredB] ++ [lexPredB] := by
  have h := c8_predicate_indices c8Table [lexPredA, parPredA, lexPredB] [lexPredB] rfl rfl
  refine ⟨h.1.trans (by rfl), h.2.1.trans (by rfl), ?_⟩
  rw [h.2.2.2.1, h.1]
  rfl

mutual

/-- Wellformedness of a symbol value: only scope-bearing classes carry
nested symbols, matching the runtime hierarchy where plain symbols
have no children collection at all. -/
def wfSym : BaseSym → Bool
  | .mk _ c _ ch => (isScopedClass c || ch.isEmpty) && wfSymList ch

def wfSymList : List BaseSym → Bool
  | [] => true
  | s :: rest => wfSym s && wfSymList rest

end

/-- The scan verdict for one child is empty exactly when the child has
no anchor or its anchor does not properly contain the target. -/
theorem findInSymbol_none_iff (s : BaseSym) (target : TokenInterval) :
    findInSymbol s target = none ↔
      ∀ c, s.context = some c → intervalProperlyContains c.interval target = false := by
  cases s with
  | mk n cl ctx ch =>
    cases ctx with
    | none =>
      constructor
      · intro _ c hc
        simp only [BaseSym.context] at hc
        exact Option.noConfusion hc
      · intro _
        simp [findInSymbol]
    | some node =>
      simp only [BaseSym.context, Option.some.injEq]
      cases hp : intervalProperlyContains node.interval target with
      | false =>
        constructor
        · intro _ c hc
          subst hc
          exact hp
        · intro _
          simp [findInSymbol, hp]
      | true =>
        constructor
        · intro h
          exfalso
          simp only [findInSymbol, hp, if_true] at h
          cases hmatch : (if isScopedClass cl then findRecursive ch target else none) with
          | none => rw [hmatch] at h; exact Option.noConfusion h
          | some child => rw [hmatch] at h; exact Option.noConfusion h
        · intro h
          have := h node rfl
          rw [hp] at this
          exact Bool.noConfusion this

/-- The scan over a child list comes back empty exactly when no child
anchor properly contains the target. -/
theorem findRecursive_none_iff (l : List BaseSym) (target : TokenInterval) :
    findRecursive l target = none ↔
      ∀ s ∈ l, ∀ c, s.context = some c → intervalProperlyContains c.interval target = false := by
  induction l with
  | nil => simp [findRecursive]
  | cons s rest ih =>
    rw [findRecursive]
    cases hs : findInSymbol s target with
    | none =>
      simp only [List.mem_cons]
      constructor
      · intro h x hx
        rcases hx with hx | hx
        · subst hx
          exact (findInSymbol_none_iff x target).mp hs
        · exact (ih.mp h) x hx
      · intro h
        exact ih.mpr (fun x hx => h x (Or.inr hx))
    | some r =>
      simp only [List.mem_cons]
      constructor
      · intro h
        exact Option.noConfusion h
      · intro h
        have hnone := (findInSymbol_none_iff s target).mpr (h s (Or.inl rfl))
        rw [hnone] at hs
        exact Option.noConfusion hs

mutual

/-- A symbol returned by the containment scan properly contains the
target, is wellformed when the scanned list was, and — when
scope-bearing — has no child that contains the target, because the
scan preferred the deeper match and found none. -/
theorem findRecursive_innermost : ∀ (l : List BaseSym) (target : TokenInterval) (r : BaseSym),
    wfSymList l = true → findRecursive l target = some r →
    (∃ c, r.context = some c ∧ intervalProperlyContains c.interval target = true) ∧
    wfSym r = true ∧
    (isScopedClass r.cls = true → findRecursive r.children target = none)
  | [], _, r => by intro _ h; exact Option.noConfusion h
  | s :: rest, target, r => by
    intro hwf h
    rw [wfSymList, Bool.and_eq_true_iff] at hwf
    rw [findRecursive] at h
    cases hs : findInSymbol s target with
    | none =>
      rw [hs] at h
      exact findRecursive_innermost rest target r hwf.2 h
    | some x =>
      rw [hs] at h
      have hx : x = r := Option.some.inj h
      subst hx
      exact findInSymbol_innermost s target x hwf.1 hs

/-- Version of the innermost property for the verdict on a single
child. -/
theorem findInSymbol_innermost : ∀ (s : BaseSym) (target : TokenInterval) (r : BaseSym),
    wfSym s = true → findInSymbol s target = some r →
    (∃ c, r.context = some c ∧ intervalProperlyContains c.interval target = true) ∧
    wfSym r = true ∧
    (isScopedClass r.cls = true → findRecursive r.children target = none)
  | .mk n cl ctx ch, target, r => by
    intro hwf h
    cases ctx with
    | none =>
      simp only [findInSymbol] at h
      exact Option.noConfusion h
    | some node =>
      simp only [findInSymbol] at h
      cases hp : intervalProperlyContains node.interval target with
      | false =>
        rw [hp] at h
        simp only [Bool.false_eq_true, if_false] at h
        exact Option.noConfusion h
      | true =>
        rw [hp] at h
        simp only [if_true] at h
        cases hsc : isScopedClass cl with
        | true =>
          rw [hsc] at h
          simp only [if_true] at h
          cases hrec : findRecursive ch target with
          | some child =>
            rw [hrec] at h
            have hx : child = r := Option.some.inj h
            subst hx
            have hwfch : wfSymList ch = true := by
              rw [wfSym, Bool.and_eq_true_iff] at hwf
              exact hwf.2
            exact findRecursive_innermost ch target child hwfch hrec
          | none =>
            rw [hrec] at h
            have hx : BaseSym.mk n cl (some node) ch = r := Option.some.inj h
            subst hx
            refine ⟨⟨node, rfl, hp⟩, hwf, ?_⟩
            intro _
            rw [BaseSym.children]
            exact hrec
        | false =>
          rw [hsc] at h
          simp only [Bool.false_eq_true, if_false] at h
          have hx : BaseSym.mk n cl (some node) ch = r := Option.some.inj h
          subst hx
          refine ⟨⟨node, rfl, hp⟩, hwf, ?_⟩
          intro hcontra
          rw [BaseSym.cls, hsc] at hcontra
          exact Bool.noConfusion hcontra

end

/-- C5: symbolContainingContext returns a symbol whose anchor properly
contains the node and none of whose children contains it — so with
nested scopes it is the deeper scope that is returned, never an
enclosing one — and it returns nothing exactly when no child of the
table properly contains the node. -/
theorem c5_innermost_containment (t : CtxSymbolTable) (node : CtxNode)
    (hwf : wfSymList t.children = true) :
    (∀ r, symbolContainingContext t node = some r →
      (∃ c, r.context = some c ∧ intervalProperlyContains c.interval node.interval = true) ∧
      (∀ s ∈ r.children, ∀ c, s.context = some c →
        intervalProperlyContains c.interval node.interval = false)) ∧
    (symbolContainingContext t node = none ↔
      ∀ s ∈ t.children, ∀ c, s.context = some c →
        intervalProperlyContains c.interval node.interval = false) := by
  constructor
  · intro r hr
    rw [symbolContainingContext] at hr
    obtain ⟨hcont, hwfr, hscoped⟩ := findRecursive_innermost t.children node.interval r hwf hr
    refine ⟨hcont, ?_⟩
    cases hsc : isScopedClass r.cls with
    | true => exact (findRecursive_none_iff r.children node.interval).mp (hscoped hsc)
    | false =>
      cases r with
      | mk n cl ctx ch =>
        rw [BaseSym.cls] at hsc
        rw [wfSym, hsc, Bool.false_or, Bool.and_eq_true_iff, List.isEmpty_iff] at hwfr
        rw [BaseSym.children, hwfr.1]
        intro s hs
        exact absurd hs (List.not_mem_nil s)
  · rw [symbolContainingContext]
    exact findRecursive_none_iff t.children node.interval

/-- Anchors and symbols of the nested-scope witness: scope A properly
contains scope B, which properly contains the target node. -/
def ctxA : CtxNode := .mk ⟨0, 10⟩ ⟨⟨1, 0⟩, ⟨5, 0⟩⟩ "A" []

def ctxB : CtxNode := .mk ⟨2, 8⟩ ⟨⟨2, 0⟩, ⟨4, 0⟩⟩ "B" []

def ctxTarget : CtxNode := .mk ⟨4, 5⟩ ⟨⟨3, 0⟩, ⟨3, 5⟩⟩ "x" []

def symB : BaseSym := .mk "B" .RuleSymbol (some ctxB) []

def symA : BaseSym := .mk "A" .RuleSymbol (some ctxA) [symB]

/-- Table whose only top-level symbol is scope A with nested scope B. -/
def c5Table : CtxSymbolTable := .mk { emptyData with children := [symA] } []

theorem c5_innermost_containment_witness :
    symbolContainingContext c5Table ctxTarget = some symB ∧
    symA.children = [symB] ∧
    intervalProperlyContains ctxA.interval ctxTarget.interval = true ∧
    symB.context = some ctxB ∧
    intervalProperlyContains ctxB.interval ctxTarget.interval = true := by
  have h := (c5_innermost_containment c5Table ctxTarget rfl).1 symB rfl
  obtain ⟨⟨c, hc, hp⟩, hnochild⟩ := h
  have h2 : symB.context = some ctxB := rfl
  have hcb : c = ctxB := Option.some.inj (hc.symm.trans h2)
  subst hcb
  exact ⟨rfl, rfl, by decide, hc, hp⟩

/-- One batch step: the head removal applies first. -/
theorem applyNotifications_cons (edges : List (Owner × Owner)) (n : Owner × Owner)
    (ns : List (Owner × Owner)) :
    applyNotifications edges (n :: ns)
      = applyNotifications (applyRemoveDependency edges n.1 n.2) ns := rfl

/-- Surviving edges after a batch of removals were already present
before the batch. -/
theorem mem_applyNotifications_subset (edges ns : List (Owner × Owner)) (x : Owner × Owner)
    (h : x ∈ applyNotifications edges ns) : x ∈ edges := by
  induction ns generalizing edges with
  | nil => exact h
  | cons n rest ih =>
    rw [applyNotifications_cons] at h
    have hx := ih (applyRemoveDependency edges n.1 n.2) h
    exact (List.mem_filter.mp hx).1

/-- An edge named by one of the removal calls is gone from the result
of applying the batch. -/
theorem not_mem_applyNotifications (edges ns : List (Owner × Owner)) (x : Owner × Owner)
    (h : x ∈ ns) : x ∉ applyNotifications edges ns := by
  induction ns generalizing edges with
  | nil => exact absurd h (List.not_mem_nil x)
  | cons n rest ih =>
    rcases List.mem_cons.mp h with hx | hx
    · intro hmem
      rw [applyNotifications_cons] at hmem
      have hin : x ∈ applyRemoveDependency edges n.1 n.2 :=
        mem_applyNotifications_subset _ rest x hmem
      have := (List.mem_filter.mp hin).2
      subst hx
      simp at this
    · rw [applyNotifications_cons]
      exact ih (applyRemoveDependency edges n.1 n.2) hx

/-- Membership in the dependents list is membership of the edge. -/
theorem mem_dependentsOf (g : List (Owner × Owner)) (a b : Owner) :
    a ∈ dependentsOf g b ↔ (a, b) ∈ g := by
  constructor
  · intro h
    obtain ⟨e, he, hfst⟩ := List.mem_map.mp h
    have h2 := List.mem_filter.mp he
    have hb : e.2 = b := by
      have := h2.2
      simpa using this
    have : e = (a, b) := by
      cases e
      simp only at hfst hb
      rw [hfst, hb]
    rw [← this]
    exact h2.1
  · intro h
    exact List.mem_map.mpr ⟨(a, b), List.mem_filter.mpr ⟨h, by simp⟩, rfl⟩

/-- C6: after clear, every lookup is empty (for every name, kind and
scope flag), the five caches and the reference map are empty, every
former dependency with an owner has the edge from the owner of this
table removed — so that owner is no longer a dependent of the owner of
the dependency in any graph the removals are applied to — and the
notification step emits nothing when the owner reference is missing,
when there are no dependencies, or when no dependency has an owner. -/
theorem c6_clear (t : CtxSymbolTable) :
    (∀ name localOnly, tableResolveSync (clear t).table name localOnly = none) ∧
    (∀ name kind localOnly, symbolExists (clear t).table name kind localOnly = false) ∧
    (clear t).table.namedActions = [] ∧
    (clear t).table.parserActions = [] ∧
    (clear t).table.lexerActions = [] ∧
    (clear t).table.parserPredicates = [] ∧
    (clear t).table.lexerPredicates = [] ∧
    (clear t).table.symbolReferences = [] ∧
    (∀ edges dep depOwner o, dep ∈ t.dependencies → dep.owner = some depOwner →
      t.owner = some o →
      o ∉ dependentsOf (applyNotifications edges (clear t).notifications) depOwner) ∧
    (t.owner = none → (clear t).notifications = []) ∧
    (t.dependencies = [] → (clear t).notifications = []) ∧
    ((∀ dep ∈ t.dependencies, dep.owner = none) → (clear t).notifications = []) := by
  refine ⟨?_, ?_, rfl, rfl, rfl, rfl, rfl, rfl, ?_, ?_, ?_, ?_⟩
  · intro name localOnly
    cases localOnly <;> rfl
  · intro name kind localOnly
    cases kind <;> cases localOnly <;> rfl
  · intro edges dep depOwner o hdep hdo howner
    intro hmem
    have hedge : (o, depOwner) ∈ applyNotifications edges (clear t).notifications :=
      (mem_dependentsOf _ o depOwner).mp hmem
    have hin : (o, depOwner) ∈ (clear t).notifications := by
      simp only [clear, howner]
      exact List.mem_filterMap.mpr ⟨dep, hdep, by rw [hdo]; rfl⟩
    exact not_mem_applyNotifications edges (clear t).notifications (o, depOwner) hin hedge
  · intro h
    simp [clear, h]
  · intro h
    simp only [clear, h]
    cases t.owner <;> simp
  · intro h
    simp only [clear]
    cases howner : t.owner with
    | none => rfl
    | some o =>
      simp only [List.filterMap_eq_nil]
      intro dep hdep
      rw [h dep hdep]
      rfl

/-- Owner records of the C6 witness. -/
def ownerT : Owner := ⟨"T", "T.g4"⟩

def ownerE : Owner := ⟨"E", "E.g4"⟩

/-- Dependency table owned by E.g4. -/
def depE : CtxSymbolTable :=
  .mk { emptyData with
        name := "E"
        owner := some ownerE
        children := [.mk "WS" .TokenSymbol (some node0) []] } []

/-- Table owned by T.g4 with one symbol and the dependency on E.g4. -/
def c6Table : CtxSymbolTable :=
  .mk { emptyData with children := [.mk "expr" .RuleSymbol (some node0) []] } [depE]

theorem c6_clear_witness :
    tableResolveSync (clear c6Table).table "expr" false = none ∧
    tableResolveSync (clear c6Table).table "WS" false = none ∧
    symbolExists (clear c6Table).table "expr" SymbolKind.ParserRule true = false ∧
    (clear c6Table).table.symbolReferences = [] ∧
    ownerT ∉ dependentsOf (applyNotifications [(ownerT, ownerE)] (clear c6Table).notifications)
      ownerE := by
  have h := c6_clear c6Table
  obtain ⟨hres, hex, _, _, _, _, _, href, hdep, _⟩ := h
  exact ⟨hres "expr" false, hres "WS" false, hex "expr" SymbolKind.ParserRule true, href,
    hdep [(ownerT, ownerE)] depE ownerE ownerT (List.mem_singleton.mpr rfl) (by rfl) (by rfl)⟩

/-- Every record produced for one collected symbol carries the file
name of the owner of the root table of that symbol. -/
theorem occurrenceRecords_source (name : String) (p : BaseSym × Option Owner) (r : ISymbolInfo)
    (h : r ∈ occurrenceRecords name p) :
    ∃ o, p.2 = some o ∧ r.source = o.fileName := by
  obtain ⟨s, ow⟩ := p
  cases ow with
  | none => simp [occurrenceRecords] at h
  | some owner =>
    refine ⟨owner, rfl, ?_⟩
    simp only [occurrenceRecords] at h
    rcases List.mem_append.mp h with h | h
    · cases hc : s.context with
      | none => rw [hc] at h; simp at h
      | some c =>
        rw [hc] at h
        by_cases hn : (s.name == name) = true
        · rw [hn] at h
          simp only [if_true, List.mem_singleton] at h
          rw [h]
        · rw [Bool.eq_false_iff.mpr hn] at h
          simp at h
    · by_cases hs : isScopedClass s.cls = true
      · rw [hs] at h
        simp only [if_true] at h
        obtain ⟨x, _, hx⟩ := List.mem_map.mp h
        rw [← hx]
      · rw [Bool.eq_false_iff.mpr hs] at h
        simp at h

/-- C10: every record of getSymbolOccurrences stems from a collected
symbol whose root table has an owner and carries the file name of that
owner; a symbol whose root table has no owner contributes no records,
and in particular a table without an owner yields no local occurrences
at all. -/
theorem c10_owner_filter (t : CtxSymbolTable) (name : String) (localOnly : Bool) :
    (∀ r ∈ getSymbolOccurrences t name localOnly,
      ∃ p ∈ allSymbolsWithOwner t localOnly, ∃ o, p.2 = some o ∧ r.source = o.fileName) ∧
    (∀ p ∈ allSymbolsWithOwner t localOnly, p.2 = none → occurrenceRecords name p = []) ∧
    (t.owner = none → getSymbolOccurrences t name true = []) := by
  refine ⟨?_, ?_, ?_⟩
  · intro r hr
    rw [getSymbolOccurrences] at hr
    obtain ⟨sub, hsub, hrsub⟩ := List.mem_flatten.mp hr
    obtain ⟨p, hp, hps⟩ := List.mem_map.mp hsub
    refine ⟨p, hp, ?_⟩
    exact occurrenceRecords_source name p r (hps ▸ hrsub)
  · intro p _ hp
    obtain ⟨s, ow⟩ := p
    simp only at hp
    rw [hp]
    rfl
  · intro howner
    cases t with
    | mk d deps =>
      have hd : d.owner = none := howner
      rw [getSymbolOccurrences]
      rw [show allSymbolsWithOwner (CtxSymbolTable.mk d deps) true
          = d.children.map (fun s => (s, d.owner)) from rfl]
      rw [hd]
      simp only [List.map_map]
      rw [List.flatten_eq_nil_iff.mpr ?_]
      intro l hl
      obtain ⟨s, _, hs⟩ := List.mem_map.mp hl
      rw [← hs]
      rfl

/-- Table without an owner but with a declared token, for the C10
witness. -/
def c10Table : CtxSymbolTable :=
  .mk { emptyData with owner := none, children := [.mk "x" .TokenSymbol (some node0) []] } []

theorem c10_owner_filter_witness :
    c10Table.owner = none ∧
    c10Table.children = [BaseSym.mk "x" SymClass.TokenSymbol (some node0) []] ∧
    getSymbolOccurrences c10Table "x" true = [] ∧
    occurrenceRecords "x" (BaseSym.mk "x" SymClass.TokenSymbol (some node0) [], none) = [] := by
  have h := c10_owner_filter c10Table "x" true
  refine ⟨rfl, rfl, h.2.2 (by rfl), ?_⟩
  exact h.2.1 (BaseSym.mk "x" SymClass.TokenSymbol (some node0) [], none)
    (List.mem_singleton.mpr rfl) rfl

/-- Comparing pairs that share the second component compares the first
components. -/
theorem pair_beq_const (y x : BaseSym) (o : Option Owner) :
    ((y, o) == (x, o)) = (y == x) := by
  rw [show ((y, o) == (x, o)) = ((y == x) && (o == o)) from rfl]
  simp

/-- Containment in a list of pairs with a fixed second component. -/
theorem contains_map_pair (seen : List BaseSym) (x : BaseSym) (o : Option Owner) :
    (seen.map (fun s => (s, o))).contains (x, o) = seen.contains x := by
  induction seen with
  | nil => rfl
  | cons a rest ih =>
    simp only [List.map_cons, List.contains_cons, ih, pair_beq_const]

/-- Duplicate removal commutes with pairing every element with one
fixed second component. -/
theorem dedupGo_map_pair (l : List BaseSym) (o : Option Owner) (seen : List BaseSym) :
    dedupKeepFirstGo (l.map (fun s => (s, o))) (seen.map (fun s => (s, o)))
      = (dedupKeepFirstGo l seen).map (fun s => (s, o)) := by
  induction l generalizing seen with
  | nil => rfl
  | cons x xs ih =>
    simp only [List.map_cons, dedupKeepFirstGo, contains_map_pair]
    cases h : seen.contains x with
    | true =>
      simp only [if_true]
      exact ih seen
    | false =>
      simp only [Bool.false_eq_true, if_false, List.map_cons]
      rw [show seen.map (fun s => (s, o)) ++ [(x, o)] = (seen ++ [x]).map (fun s => (s, o)) by
        simp]
      rw [ih (seen ++ [x])]

/-- Elements surviving duplicate removal come from the original list. -/
theorem mem_dedupGo [BEq α] (l seen : List α) (x : α) (h : x ∈ dedupKeepFirstGo l seen) :
    x ∈ l := by
  induction l generalizing seen with
  | nil => exact absurd h (List.not_mem_nil x)
  | cons a rest ih =>
    rw [dedupKeepFirstGo] at h
    cases hc : seen.contains a with
    | true =>
      rw [hc] at h
      simp only [if_true] at h
      exact List.mem_cons_of_mem a (ih seen h)
    | false =>
      rw [hc] at h
      simp only [Bool.false_eq_true, if_false, List.mem_cons] at h
      rcases h with h | h
      · exact h ▸ List.mem_cons_self a rest
      · exact List.mem_cons_of_mem a (ih (seen ++ [a]) h)

/-- Follows the wording of the spec: one category of the top-level
listing — the symbols of one class in table insertion order, with
duplicates removed by identity, formatted with the provenance of the
table. -/
def localCategoryInfos (t : CtxSymbolTable) (c : SymClass) : List ISymbolInfo :=
  (dedupKeepFirst (t.children.filter (fun s => s.cls == c))).map
    (fun s =>
      { kind := kindOfClass s.cls
        name := s.name
        source := match t.owner with | some o => o.fileName | none => "ANTLR runtime"
        definition := definitionForContext s.context
        description := none })

/-- Follows the wording of the spec: the fixed top-level category
order — token-vocab option, imports, built-in tokens, virtual tokens,
fragment tokens, tokens, built-in modes, modes, built-in channels,
channels, rules. -/
def listTopLevelSymbolsSpec (t : CtxSymbolTable) : List ISymbolInfo :=
  tokenVocabHead t
    ++ localCategoryInfos t .ImportSymbol
    ++ localCategoryInfos t .BuiltInTokenSymbol
    ++ localCategoryInfos t .VirtualTokenSymbol
    ++ localCategoryInfos t .FragmentTokenSymbol
    ++ localCategoryInfos t .TokenSymbol
    ++ localCategoryInfos t .BuiltInModeSymbol
    ++ localCategoryInfos t .LexerModeSymbol
    ++ localCategoryInfos t .BuiltInChannelSymbol
    ++ localCategoryInfos t .TokenChannelSymbol
    ++ localCategoryInfos t .RuleSymbol

/-- Follows the wording of the spec: the position of a kind in the
fixed category order of the top-level listing. -/
def categoryRank : SymbolKind → Nat
  | .TokenVocab => 0
  | .Import => 1
  | .BuiltInLexerToken => 2
  | .VirtualLexerToken => 3
  | .FragmentLexerToken => 4
  | .LexerRule => 5
  | .BuiltInMode => 6
  | .LexerMode => 7
  | .BuiltInChannel => 8
  | .TokenChannel => 9
  | .ParserRule => 10
  | _ => 11

/-- With true as the scope flag, one category of the listing is the
class filter of the children in insertion order, de-duplicated, with
the provenance of the table itself. -/
theorem symbolsOfType_local (t : CtxSymbolTable) (c : SymClass) :
    symbolsOfType t c true = localCategoryInfos t c := by
  cases t with
  | mk d deps =>
    rw [symbolsOfType, localCategoryInfos]
    rw [show allSymbolsWithOwner (CtxSymbolTable.mk d deps) true
        = d.children.map (fun s => (s, d.owner)) from rfl]
    rw [List.filter_map]
    have hfun : ((fun (p : BaseSym × Option Owner) => p.1.cls == c)
        ∘ (fun (s : BaseSym) => (s, d.owner))) = (fun (s : BaseSym) => s.cls == c) := rfl
    rw [hfun]
    rw [dedupKeepFirst, dedupKeepFirst,
      show ([] : List (BaseSym × Option Owner)) = ([] : List BaseSym).map (fun s => (s, d.owner))
        from rfl,
      dedupGo_map_pair]
    rw [List.map_map]
    rfl

/-- The record built for a symbol whose kind is not Terminal keeps the
kind of that symbol: the dependency substitution never runs. -/
theorem getSymbolInfoCore_kind (t : CtxSymbolTable) (s : BaseSym) (o : Option Owner)
    (h : kindOfClass s.cls ≠ SymbolKind.Terminal) :
    (getSymbolInfoCore t s o).kind = kindOfClass s.cls := by
  have hb : (kindOfClass s.cls == SymbolKind.Terminal) = false := by
    simp only [beq_eq_false_iff_ne, ne_eq]
    exact h
  simp [getSymbolInfoCore, hb]

/-- Head records of the listing carry the TokenVocab kind whenever the
symbol stored under the tokenVocab option is a token-vocabulary
symbol. -/
theorem tokenVocabHead_kind (t : CtxSymbolTable)
    (hvocab : ∀ opts tv, scopeResolve t.children "options" = some opts →
      optionScopeResolve t opts "tokenVocab" true = some tv →
      tv.cls = SymClass.TokenVocabSymbol)
    (r : ISymbolInfo) (hr : r ∈ tokenVocabHead t) : r.kind = SymbolKind.TokenVocab := by
  cases hopts : scopeResolve t.children "options" with
  | none => simp [tokenVocabHead, hopts] at hr
  | some opts =>
    cases htv : optionScopeResolve t opts "tokenVocab" true with
    | none => simp [tokenVocabHead, hopts, htv] at hr
    | some tv =>
      simp only [tokenVocabHead, hopts, htv, List.mem_singleton] at hr
      subst hr
      have hcls := hvocab opts tv hopts htv
      rw [getSymbolInfoCore_kind t tv t.owner (by rw [hcls]; decide), hcls]
      rfl

/-- Records of one category carry the kind of the class of that
category. -/
theorem localCategoryInfos_kind (t : CtxSymbolTable) (c : SymClass) (r : ISymbolInfo)
    (hr : r ∈ localCategoryInfos t c) : r.kind = kindOfClass c := by
  rw [localCategoryInfos] at hr
  obtain ⟨s, hs, hrec⟩ := List.mem_map.mp hr
  have hmem : s ∈ t.children.filter (fun s => s.cls == c) := mem_dedupGo _ _ _ hs
  have hcls : s.cls = c := by
    have h2 := (List.mem_filter.mp hmem).2
    simpa using h2
  rw [← hrec]
  show kindOfClass s.cls = kindOfClass c
  rw [hcls]

/-- A list whose elements are all one value is weakly sorted. -/
theorem pairwise_of_const (ys : List Nat) (k : Nat) (hy : ∀ y ∈ ys, y = k) :
    ys.Pairwise (· ≤ ·) := by
  induction ys with
  | nil => exact List.Pairwise.nil
  | cons a rest ih =>
    refine List.Pairwise.cons ?_ (ih fun y hm => hy y (List.mem_cons_of_mem a hm))
    intro b hb
    rw [hy a (List.mem_cons_self a rest), hy b (List.mem_cons_of_mem a hb)]

/-- Appending a constant block of a larger rank keeps the rank list
weakly sorted and bounded. -/
theorem pairwise_le_step (xs ys : List Nat) (kp k : Nat)
    (hx : ∀ x ∈ xs, x ≤ kp) (hpx : xs.Pairwise (· ≤ ·))
    (hy : ∀ y ∈ ys, y = k) (hk : kp ≤ k) :
    (xs ++ ys).Pairwise (· ≤ ·) ∧ (∀ x ∈ xs ++ ys, x ≤ k) := by
  constructor
  · refine List.pairwise_append.mpr ⟨hpx, pairwise_of_const ys k hy, ?_⟩
    intro a ha b hb
    rw [hy b hb]
    exact le_trans (hx a ha) hk
  · intro x hmem
    rcases List.mem_append.mp hmem with h | h
    · exact le_trans (hx x h) hk
    · exact le_of_eq (hy x h)

/-- C7: with the local flag set, the top-level listing is exactly the
fixed category concatenation of the spec — token-vocab option first,
then the ten categories, each in table insertion order with duplicates
removed — and therefore the category ranks of the emitted records are
weakly increasing regardless of declaration order in the source tree. -/
theorem c7_fixed_category_order (t : CtxSymbolTable)
    (hvocab : ∀ opts tv, scopeResolve t.children "options" = some opts →
      optionScopeResolve t opts "tokenVocab" true = some tv →
      tv.cls = SymClass.TokenVocabSymbol) :
    listTopLevelSymbols t true = listTopLevelSymbolsSpec t ∧
    ((listTopLevelSymbols t true).map (fun r => categoryRank r.kind)).Pairwise (· ≤ ·) := by
  have hdecomp : listTopLevelSymbols t true = listTopLevelSymbolsSpec t := by
    rw [listTopLevelSymbols, listTopLevelSymbolsSpec]
    simp only [symbolsOfType_local]
  refine ⟨hdecomp, ?_⟩
  rw [hdecomp, listTopLevelSymbolsSpec]
  simp only [List.map_append]
  have rk : ISymbolInfo → Nat := fun r => categoryRank r.kind
  have hhead : ∀ x ∈ (tokenVocabHead t).map (fun r => categoryRank r.kind), x = 0 := by
    intro x hx
    obtain ⟨r, hr, hxr⟩ := List.mem_map.mp hx
    rw [← hxr, tokenVocabHead_kind t hvocab r hr]
    rfl
  have hcat : ∀ (c : SymClass) (k : Nat), categoryRank (kindOfClass c) = k →
      ∀ x ∈ (localCategoryInfos t c).map (fun r => categoryRank r.kind), x = k := by
    intro c k hk x hx
    obtain ⟨r, hr, hxr⟩ := List.mem_map.mp hx
    rw [← hxr, localCategoryInfos_kind t c r hr, hk]
  have s0 : ((tokenVocabHead t).map (fun r => categoryRank r.kind)).Pairwise (· ≤ ·) ∧
      (∀ x ∈ (tokenVocabHead t).map (fun r => categoryRank r.kind), x ≤ 0) := by
    refine ⟨pairwise_of_const _ 0 hhead, ?_⟩
    intro x hx
    exact le_of_eq (hhead x hx)
  have s1 := pairwise_le_step _ _ 0 1 s0.2 s0.1 (hcat .ImportSymbol 1 rfl) (by omega)
  have s2 := pairwise_le_step _ _ 1 2 s1.2 s1.1 (hcat .BuiltInTokenSymbol 2 rfl) (by omega)
  have s3 := pairwise_le_step _ _ 2 3 s2.2 s2.1 (hcat .VirtualTokenSymbol 3 rfl) (by omega)
  have s4 := pairwise_le_step _ _ 3 4 s3.2 s3.1 (hcat .FragmentTokenSymbol 4 rfl) (by omega)
  have s5 := pairwise_le_step _ _ 4 5 s4.2 s4.1 (hcat .TokenSymbol 5 rfl) (by omega)
  have s6 := pairwise_le_step _ _ 5 6 s5.2 s5.1 (hcat .BuiltInModeSymbol 6 rfl) (by omega)
  have s7 := pairwise_le_step _ _ 6 7 s6.2 s6.1 (hcat .LexerModeSymbol 7 rfl) (by omega)
  have s8 := pairwise_le_step _ _ 7 8 s7.2 s7.1 (hcat .BuiltInChannelSymbol 8 rfl) (by omega)
  have s9 := pairwise_le_step _ _ 8 9 s8.2 s8.1 (hcat .TokenChannelSymbol 9 rfl) (by omega)
  have s10 := pairwise_le_step _ _ 9 10 s9.2 s9.1 (hcat .RuleSymbol 10 rfl) (by omega)
  exact s10.1

/-- Fixtures of the C7 witness: a token-vocabulary option inside an
options scope, plus categories declared out of order. -/
def tokenVocabSym : BaseSym := .mk "tokenVocab" .TokenVocabSymbol (some node0) []

def optionsScopeSym : BaseSym := .mk "options" .OptionsSymbol none [tokenVocabSym]

def c7Table : CtxSymbolTable :=
  .mk { emptyData with children :=
    [ .mk "r1" .RuleSymbol (some node0) [],
      .mk "TOK" .TokenSymbol (some node0) [],
      optionsScopeSym,
      .mk "K" .ImportSymbol (some node0) [],
      .mk "FRAG" .FragmentTokenSymbol (some node0) [] ] } []

theorem c7_fixed_category_order_witness :
    listTopLevelSymbols c7Table true = listTopLevelSymbolsSpec c7Table ∧
    ((listTopLevelSymbols c7Table true).map (fun r => categoryRank r.kind)).Pairwise (· ≤ ·) ∧
    (listTopLevelSymbols c7Table true).map (fun r => r.kind)
      = [SymbolKind.TokenVocab, SymbolKind.Import, SymbolKind.FragmentLexerToken,
         SymbolKind.LexerRule, SymbolKind.ParserRule] := by
  have h := c7_fixed_category_order c7Table (by
    intro opts tv h1 h2
    have ho : opts = optionsScopeSym := Option.some.inj (h1.symm.trans (by rfl))
    subst ho
    have htv : tv = tokenVocabSym := Option.some.inj (h2.symm.trans (by rfl))
    subst htv
    rfl)
  exact ⟨h.1, h.2, by decide⟩
